import Mathlib

/-!
Verification of the seag-romtools container decoder/encoder (parse.py) and
ELF32 image builder (rom2elf.py), as a shallow embedding in Lean.

Byte buffers are modelled as `List Nat` (each entry a byte value 0..255 in
every reachable state; Python guarantees this intrinsically for `bytes`).
Python slices `data[a:b]` clamp out-of-range bounds, which matches
`(data.take b).drop a`.  `struct.pack` fields are modelled positionally as
little-endian byte lists; where Python would raise `struct.error` on an
out-of-range value the model wraps with `% 256` (the difference is invisible
on parsed data, whose fields are always in range, and is noted at each use).
Failures (Python `assert` / `IndexError` during decoding) are modelled with
`Option`/`Except`.
-/

set_option maxRecDepth 4096

abbrev Bytes := List Nat

/-- Little-endian 16-bit read of two bytes. -/
def u16le (b0 b1 : Nat) : Nat := b0 + 256 * b1

/-- Little-endian 32-bit read of four bytes. -/
def u32le (b0 b1 b2 b3 : Nat) : Nat := b0 + 256 * b1 + 65536 * b2 + 16777216 * b3

/-- Little-endian 16-bit write, as `struct.pack` with format H does. -/
def pack16 (v : Nat) : Bytes := [v % 256, v / 256 % 256]

/-- Little-endian 32-bit write, as `struct.pack` with format I or L does. -/
def pack32 (v : Nat) : Bytes := [v % 256, v / 256 % 256, v / 65536 % 256, v / 16777216 % 256]

/-- Python byteSlice `data[a:b]` (clamping, `a`, `b` nonnegative). -/
def byteSlice (data : Bytes) (a b : Nat) : Bytes := (data.take b).drop a

/-- The four ASCII bytes of the disc signature (c, s, i, D). -/
def csiD : Bytes := [0x63, 0x73, 0x69, 0x44]

def EXTRA_SPACE_ID : Nat := 0x00

def ROOT_CONTAINER_ID : Nat := 0x1d

/-- The six decoded fields of `File.parse_header`. -/
structure FileHeader where
  packed : Bool
  id : Nat
  type : Nat
  unknown : Nat
  size : Nat
  loadAddress : Nat
  deriving Repr, DecidableEq

/-- A `File` leaf: the decoded header fields plus the stored payload bytes. -/
structure File where
  packed : Bool
  id : Nat
  type : Nat
  unknown : Nat
  size : Nat
  loadAddress : Nat
  blob : Bytes
  deriving Repr, DecidableEq

def File.CHUNK_SIZE : Nat := 0x40

/-- Source `File.parse_header`: asserts exactly 8 bytes, then unpacks
`<BBHL` and splits the bit fields. -/
def File.parse_header : Bytes → Option FileHeader
  | [fileInfo, sizeBytesAndUnknown, s0, s1, a0, a1, a2, a3] =>
      some { packed := (fileInfo &&& 1) == 1
             id := (fileInfo >>> 1) &&& 0x0f
             type := fileInfo >>> 5
             unknown := sizeBytesAndUnknown &&& 0x0f
             size := u16le s0 s1 * File.CHUNK_SIZE + ((sizeBytesAndUnknown &&& 0xf0) >>> 2)
             loadAddress := u32le a0 a1 a2 a3 }
  | _ => none

/-- Source `File.__init__`: parse the first 8 bytes (assertion failure if fewer),
then keep `data[8:8+size]` as the payload. -/
def File.init (data : Bytes) : Option File :=
  (File.parse_header (data.take 8)).map fun h =>
    ⟨h.packed, h.id, h.type, h.unknown, h.size, h.loadAddress, (data.drop 8).take h.size⟩

/-- Source `File.header_blob`: re-encode the 8-byte header; the size fields are
recomputed from the current payload length.  `struct.pack` would raise on a
byte value above 255 (only possible here when `unknown` is out of its 4-bit
range, which never happens for parsed files); the model wraps instead. -/
def File.header_blob (f : File) : Bytes :=
  let fileInfo := (((if f.packed then 1 else 0) ||| (f.id <<< 1)) ||| (f.type <<< 5)) &&& 0xff
  let sizeBytes := f.blob.length % File.CHUNK_SIZE
  let sizeBytesAndUnknown := (sizeBytes <<< 2) ||| f.unknown
  let sizeChunks := f.blob.length / File.CHUNK_SIZE
  [fileInfo, sizeBytesAndUnknown % 256] ++ pack16 sizeChunks ++ pack32 f.loadAddress

def File.footer_blob (f : File) : Bytes := f.blob

def File.to_blob (f : File) : Bytes := f.header_blob ++ f.footer_blob

/-- The element tree.  `container true` is a `DiscContainer` (32-byte
pre-table header), `container false` an `OldContainer` (16-byte). -/
inductive Element where
  | blob : Nat → Bytes → Element
  | file : File → Element
  | directory : Nat → List Element → Element
  | container : Bool → Nat → Bytes → List Element → Element
  deriving Repr

def Element.id : Element → Nat
  | .blob i _ => i
  | .file f => f.id
  | .directory i _ => i
  | .container _ i _ _ => i

/-- One 4-byte table entry as the encoder writes it:
`struct.pack` of `<BI` applied to `id & 0xff` and `offset & 0xffffffff`,
keeping the first four bytes (so a 3-byte little-endian offset). -/
def packEntry (i o : Nat) : Bytes := [i &&& 0xff] ++ (pack32 (o &&& 0xffffffff)).take 3

/-- The loop body of `Container.header_blob`: one entry per (id, encoded
size) pair, with the running offset advancing by each nonzero size and
resetting to 0 after a zero size. -/
def segTableAux (offset : Nat) : List (Nat × Nat) → Bytes
  | [] => []
  | (i, s) :: rest => packEntry i offset ++ segTableAux (if s ≠ 0 then offset + s else 0) rest

/-- Source `Container.header_blob` given each child's id and encoded size:
nothing if the first child carries the root-container id, otherwise the
stored pre-table header followed by the rebuilt table. -/
def containerHeaderAux (pre : Bytes) (idSizes : List (Nat × Nat)) : Bytes :=
  match idSizes with
  | (i, _) :: _ =>
      if i == ROOT_CONTAINER_ID then []
      else pre ++ segTableAux (pre.length + 4 * idSizes.length) idSizes
  | [] => pre

mutual

/-- Source `Element.to_blob`: header, then children in order, then footer. -/
def Element.to_blob : Element → Bytes
  | .blob _ d => d
  | .file f => File.header_blob f ++ File.footer_blob f
  | .directory _ es => (blobs es).flatten
  | .container _ _ pre es =>
      containerHeaderAux pre (List.zip (es.map Element.id) ((blobs es).map List.length))
        ++ (blobs es).flatten

/-- The serializations of a list of children, in order. -/
def blobs : List Element → List Bytes
  | [] => []
  | e :: es => Element.to_blob e :: blobs es

end

/-- Source `Container.header_blob` on an element list. -/
def Container.header_blob (pre : Bytes) (es : List Element) : Bytes :=
  containerHeaderAux pre (List.zip (es.map Element.id) ((blobs es).map List.length))

/-- Build a `File` from eight header bytes plus the rest of the buffer.
The inner match is exhaustive because `File.parse_header` always succeeds
on a literal 8-byte list. -/
def fileOf8 (b0 b1 b2 b3 b4 b5 b6 b7 : Nat) (rest : Bytes) : File :=
  match File.parse_header [b0, b1, b2, b3, b4, b5, b6, b7] with
  | some h => ⟨h.packed, h.id, h.type, h.unknown, h.size, h.loadAddress, rest.take h.size⟩
  | none => ⟨false, 0, 0, 0, 0, 0, []⟩

/-- The loop of `Directory.__init__`: parse `File`s back to back while at
least 8 bytes remain, advancing by `len(file.to_blob())` = 8 + payload
length, stopping after a file with id 0; returns the parsed files and the
unconsumed suffix of the buffer. -/
def dirLoop (data : Bytes) : List File × Bytes :=
  match data with
  | b0 :: b1 :: b2 :: b3 :: b4 :: b5 :: b6 :: b7 :: rest =>
      let f := fileOf8 b0 b1 b2 b3 b4 b5 b6 b7 rest
      let rem := rest.drop f.blob.length
      if f.id == 0 then ([f], rem)
      else
        let p := dirLoop rem
        (f :: p.1, p.2)
  | other => ([], other)
termination_by data.length
decreasing_by simp; omega

/-- Source `Directory.__init__`: the parsed files, then one Blob with id 0 holding
any remaining spare space. -/
def directoryInit (id : Nat) (data : Bytes) : Element :=
  let p := dirLoop data
  .directory id (p.1.map Element.file ++ if p.2.isEmpty then [] else [.blob 0 p.2])

/-- Decode errors.  Python raises `AssertionError` for short fixed-size
reads and signature violations and `IndexError` for the backward walk over
a table with no nonzero offset; the spec's taxonomy names are used here. -/
inductive DecodeError where
  | malformedHeader
  | signatureMismatch
  | inconsistentTable
  | outOfFuel
  deriving Repr, DecidableEq

/-- Source `Container.parse_entry`: asserts exactly 4 bytes, appends a zero byte
and unpacks `<BI`, so the offset is the 3-byte little-endian value. -/
def parse_entry : Bytes → Option (Nat × Nat)
  | [a, b, c, d] => some (a, u32le b c d 0)
  | _ => none

/-- The table split of `get_elements_old`: `parse_entry` on each 4-byte
chunk; a trailing chunk shorter than 4 bytes fails the length assertion. -/
def parseTableChunks : Bytes → Option (List (Nat × Nat))
  | [] => some []
  | a :: b :: c :: d :: rest =>
      match parse_entry [a, b, c, d] with
      | some e => (parseTableChunks rest).map (e :: ·)
      | none => none
  | _ => none

/-- Source `Container.get_elements_old`: the first entry's offset bounds the table
region itself. -/
def get_elements_old (pth : Nat) (data : Bytes) : Option (List (Nat × Nat)) :=
  match parse_entry (byteSlice data pth (pth + 4)) with
  | some (_, firstElementOffset) => parseTableChunks (byteSlice data pth firstElementOffset)
  | none => none

/-- The loop of `Container.get_elements_new`: read 4-byte entries until one
with the extra-space id (included); running past the buffer fails the
4-byte assertion of `parse_entry`. -/
def newTableLoop : Bytes → Option (List (Nat × Nat))
  | a :: b :: c :: d :: rest =>
      match parse_entry [a, b, c, d] with
      | some e => if e.1 == EXTRA_SPACE_ID then some [e] else (newTableLoop rest).map (e :: ·)
      | none => none
  | _ => none

def get_elements_new (pth : Nat) (data : Bytes) : Option (List (Nat × Nat)) :=
  newTableLoop (data.drop pth)

/-- The backward walk of `Container.__init__` over the reversed entry list:
skip zero offsets; walking past the first entry is Python's `IndexError`. -/
def backWalk : List (Nat × Nat) → Option Nat
  | [] => none
  | (_, o) :: rest => if o == 0 then backWalk rest else some o

/-- Table parsing of `Container.__init__`: the first entry selects the old
dialect (nonzero offset: self-describing table length) or the new dialect
(zero offset: sentinel-terminated). -/
def elementsOf (pth : Nat) (data : Bytes) : Option (List (Nat × Nat)) :=
  match parse_entry (byteSlice data pth (pth + 4)) with
  | some (_, firstElementOffset) =>
      if firstElementOffset ≠ 0 then get_elements_old pth data else get_elements_new pth data
  | none => none

/-- Source `DiscContainer.signature_assert` / `OldContainer.signature_assert`. -/
def signatureOk (isDisc : Bool) (data : Bytes) : Bool :=
  if isDisc then byteSlice data 16 20 == csiD else !(byteSlice data 16 20 == csiD)

/-- Pre-table header length of the container dialect. -/
def pthOf (isDisc : Bool) : Nat := if isDisc then 32 else 16

/-- The pair loop of `Container.__init__`: each consecutive entry pair
carves `data[currentOffset:nextOffset]`; a root-container id or zero offset
forces a Blob, otherwise `create_element` decides (`ce` is the recursive
classifier, threaded explicitly for fuel). -/
def pairsLoopWith (ce : Nat → Bytes → Except DecodeError Element) (data : Bytes) :
    List (Nat × Nat) → Except DecodeError (List Element)
  | (currentId, currentOffset) :: next :: rest =>
      let elementData := byteSlice data currentOffset next.2
      match (if currentId == ROOT_CONTAINER_ID || currentOffset == 0 then
               Except.ok (Element.blob currentId elementData)
             else ce currentId elementData) with
      | .error e => .error e
      | .ok el =>
          match pairsLoopWith ce data (next :: rest) with
          | .error e => .error e
          | .ok els => .ok (el :: els)
  | _ => .ok []

/-- Source `Container.__init__` with the recursive classifier passed in:
signature check, table parse, pair loop, then the final element from the
backward walk, carved to the end of the buffer with the last entry's id. -/
def containerInitWith (ce : Nat → Bytes → Except DecodeError Element) (isDisc : Bool)
    (id : Nat) (data : Bytes) : Except DecodeError Element :=
  let pre := data.take (pthOf isDisc)
  if signatureOk isDisc data then
    match elementsOf (pthOf isDisc) data with
    | none => .error .malformedHeader
    | some elements =>
        match pairsLoopWith ce data elements with
        | .error e => .error e
        | .ok children =>
            match elements.getLast? with
            | none => .error .inconsistentTable
            | some (lastId, _) =>
                match backWalk elements.reverse with
                | none => .error .inconsistentTable
                | some lastOffset =>
                    match ce lastId (data.drop lastOffset) with
                    | .error e => .error e
                    | .ok e => .ok (.container isDisc id pre (children ++ [e]))
  else .error .signatureMismatch

/-- Source `Container.create_element`: disc signature beyond byte 36 makes a
DiscContainer; fewer than 8 bytes a Blob; a plausible File header (size fits
and load address is not the sentinel) a Directory; otherwise a Blob.  The
fuel argument only bounds recursion depth; `build_root_container` supplies
more than any input can consume. -/
def create_element : Nat → Nat → Bytes → Except DecodeError Element
  | 0, _, _ => .error .outOfFuel
  | fuel + 1, id, data =>
      if 36 < data.length ∧ byteSlice data 16 20 = csiD then
        containerInitWith (fun i d => create_element fuel i d) true id data
      else if data.length < 8 then .ok (.blob id data)
      else
        match File.parse_header (data.take 8) with
        | none => .error .malformedHeader
        | some h =>
            if h.size ≤ data.length ∧ h.loadAddress ≠ 0xffffffff then .ok (directoryInit id data)
            else .ok (.blob id data)

/-- Source `Container.__init__` at a given fuel. -/
def containerInit (fuel : Nat) (isDisc : Bool) (id : Nat) (data : Bytes) :
    Except DecodeError Element :=
  containerInitWith (fun i d => create_element fuel i d) isDisc id data

/-- Source `build_root_container`: the disc signature at bytes 16..20 selects the
dialect of the root container, whose id is fixed. -/
def build_root_container (data : Bytes) : Except DecodeError Element :=
  if byteSlice data 16 20 == csiD then
    containerInit (data.length + 1) true ROOT_CONTAINER_ID data
  else
    containerInit (data.length + 1) false ROOT_CONTAINER_ID data

/-! ELF32 image builder and segment overlap resolver (rom2elf.py).
Segments are (data, address) pairs, exactly as `Elf32.segments` stores
them. -/

/-- Source `Elf32.elf32_header`: `struct.pack` of `<8B8xHH5I6H` with the fixed
ident, version, and structure-size fields filled in. -/
def elf32_header (osabi type machine entry phoff shoff flags phnum shnum shstrndx : Nat) :
    Bytes :=
  [0x7f, 0x45, 0x4c, 0x46, 1, 1, 1, osabi % 256] ++ List.replicate 8 0 ++
    pack16 type ++ pack16 machine ++ pack32 1 ++ pack32 entry ++ pack32 phoff ++
    pack32 shoff ++ pack32 flags ++ pack16 0x34 ++ pack16 0x20 ++ pack16 phnum ++
    pack16 0x28 ++ pack16 shnum ++ pack16 shstrndx

/-- Source `Elf32.program_header`: `struct.pack` of `<8I`. -/
def program_header (type offset vaddr paddr filesz memsz flags align : Nat) : Bytes :=
  pack32 type ++ pack32 offset ++ pack32 vaddr ++ pack32 paddr ++ pack32 filesz ++
    pack32 memsz ++ pack32 flags ++ pack32 align

/-- Source `Elf32.section_header`: `struct.pack` of `<10I`. -/
def section_header (name type flags addr offset size link info addralign entsize : Nat) :
    Bytes :=
  pack32 name ++ pack32 type ++ pack32 flags ++ pack32 addr ++ pack32 offset ++
    pack32 size ++ pack32 link ++ pack32 info ++ pack32 addralign ++ pack32 entsize

/-- The program-header loop of `Elf32.to_blob`: one PT_LOAD header per
segment with flags R W X and alignment 0, the file offset advancing by each
segment's length. -/
def phBytes (offset : Nat) : List (Bytes × Nat) → Bytes
  | [] => []
  | (data, address) :: rest =>
      program_header 0x01 offset address 0 data.length data.length 0x07 0 ++
        phBytes (offset + data.length) rest

/-- Source `Elf32.to_blob`: file header, program headers, one null section header,
then the raw segment bytes in order.  The argument positions in the
`elf32_header` call are exactly those of the source call site. -/
def Elf32.to_blob (segments : List (Bytes × Nat)) : Bytes :=
  elf32_header 0x00 0x02 0x28 0
      0x34 (0x34 + 0x20 * segments.length)
      0 segments.length
      0 0 ++
    phBytes (0x34 + 0x20 * segments.length + 0x28) segments ++
    section_header 0 0x00 0x00 0 0 0 0 0 0 0 ++
    (segments.map Prod.fst).flatten

/-- The inner scan of `resolve_segment_overlaps`: find the first merged
segment whose range contains the incoming segment's start or end
(inclusive), replace it in place; `none` when no such segment exists.
Python's `max(0, address - curAddress)` and the Nat-truncated subtraction
agree, as do `min(len(curData), end - curAddress)` and the use below. -/
def scanMerge (data : Bytes) (address : Nat) : List (Bytes × Nat) → Option (List (Bytes × Nat))
  | [] => none
  | (curData, curAddress) :: rest =>
      let e := address + data.length
      let curEnd := curAddress + curData.length
      if (curAddress ≤ address ∧ address ≤ curEnd) ∨ (curAddress ≤ e ∧ e ≤ curEnd) then
        let startOffset := address - curAddress
        let endOffset := min curData.length (e - curAddress)
        some ((curData.take startOffset ++ data ++ curData.drop endOffset,
               min address curAddress) :: rest)
      else (scanMerge data address rest).map ((curData, curAddress) :: ·)

/-- One iteration of the outer loop of `resolve_segment_overlaps`. -/
def resolveStep (newSegments : List (Bytes × Nat)) (data : Bytes) (address : Nat) :
    List (Bytes × Nat) :=
  match scanMerge data address newSegments with
  | some merged => merged
  | none => newSegments ++ [(data, address)]

/-- Source `Elf32.resolve_segment_overlaps`: seed with the first segment, then
fold the remaining segments through the scan.  On an empty segment list the
source raises `IndexError`; the model returns the empty list. -/
def resolve_segment_overlaps : List (Bytes × Nat) → List (Bytes × Nat)
  | [] => []
  | first :: rest => rest.foldl (fun acc s => resolveStep acc s.1 s.2) [first]

/-! Specification-side definitions: relational/recursive statements of the
claims' wording, to be compared with the code functions above, plus the
concrete inputs used by witnesses and counterexamples. -/

/-- The cursor rule claimed for `Container.header_blob`'s table: start
right after the table region, advance by each nonzero encoded size, reset
to 0 after a zero encoded size. -/
def cursorSpec (start : Nat) (sizes : List Nat) (i : Nat) : Nat :=
  match sizes, i with
  | _, 0 => start
  | [], _ + 1 => start
  | s :: ss, i + 1 => cursorSpec (if s ≠ 0 then start + s else 0) ss i

/-- The claimed `Directory` parsing discipline, stated relationally:
files are parsed back to back from offset 0, each consuming 8 header bytes
plus its stored payload; parsing stops after the first file with slot id 0,
or as soon as fewer than 8 bytes remain, leaving the unconsumed suffix. -/
inductive DirFiles : Bytes → List File → Bytes → Prop where
  | stop (data : Bytes) : data.length < 8 → DirFiles data [] data
  | last (data : Bytes) (f : File) : File.init data = some f → f.id = 0 →
      DirFiles data [f] (data.drop (8 + f.blob.length))
  | cons (data : Bytes) (f : File) (fs : List File) (rem : Bytes) :
      File.init data = some f → f.id ≠ 0 →
      DirFiles (data.drop (8 + f.blob.length)) fs rem →
      DirFiles data (f :: fs) rem

/-- Value `o` is the offset of the last table entry with a nonzero offset, and
every later entry's offset is 0 (the claimed backward-walk result). -/
def LastNonzeroStart (es : List (Nat × Nat)) (o : Nat) : Prop :=
  o ≠ 0 ∧ ∃ k, (es[k]?).map Prod.snd = some o ∧
    ∀ j, k < j → j < es.length → (es[j]?).map Prod.snd = some 0

/-- The overlap test the resolver actually applies to a merged segment:
the incoming segment's start or end lies within the merged segment's
range, boundaries inclusive. -/
def segOverlapB (address len : Nat) (cur : Bytes × Nat) : Bool :=
  decide ((cur.2 ≤ address ∧ address ≤ cur.2 + cur.1.length) ∨
          (cur.2 ≤ address + len ∧ address + len ≤ cur.2 + cur.1.length))

/-- The claimed merged segment: spans from `min(addr, curAddr)`, bytes are
`curData[:startOffset] + data + curData[endOffset:]`. -/
def mergedSeg (cur : Bytes × Nat) (data : Bytes) (address : Nat) : Bytes × Nat :=
  (cur.1.take (address - cur.2) ++ data ++
     cur.1.drop (min cur.1.length (address + data.length - cur.2)),
   min address cur.2)

/-- Table entries at their canonical positions: entry `k` points at the
position right after the table plus the lengths of the chunks before it. -/
def layoutEntries (start : Nat) : List (Nat × Bytes) → List (Nat × Nat)
  | [] => []
  | (i, c) :: rest => (i, start) :: layoutEntries (start + c.length) rest

/-- The raw bytes of a table. -/
def tableBytes (entries : List (Nat × Nat)) : Bytes :=
  (entries.map fun e => packEntry e.1 e.2).flatten

/-- A container buffer in canonical old-dialect form: pre-table header,
self-describing table, then the chunks laid out contiguously. -/
def canonData (pre : Bytes) (pcs : List (Nat × Bytes)) : Bytes :=
  pre ++ tableBytes (layoutEntries (pre.length + 4 * pcs.length) pcs) ++
    (pcs.map Prod.snd).flatten

/-- Is this element a `DiscContainer` node? -/
def isDiscContainer : Element → Bool
  | .container true _ _ _ => true
  | _ => false

/-- C1 counterexample input: a 28-byte buffer with a new-dialect table
whose entries are (5, 0) and (0, 24): it decodes, but the entry offsets do
not match the re-encoded layout. -/
def c1data : Bytes :=
  List.replicate 16 0 ++ [5, 0, 0, 0] ++ [0, 24, 0, 0] ++ [9, 9, 9, 9]

/-- C1 witness input: canonical old-dialect container with two 4-byte
blob chunks. -/
def c1wPcs : List (Nat × Bytes) :=
  [(1, [0xaa, 0xaa, 0xaa, 0xaa]), (2, [0xbb, 0xbb, 0xbb, 0xbb])]

def c1wData : Bytes := canonData (List.replicate 16 0) c1wPcs

/-- C4 counterexample segments: the second (incoming) segment's range
strictly contains the first's. -/
def c4segs : List (Bytes × Nat) :=
  [([0xaa, 0xaa], 4), (List.replicate 10 0xbb, 0)]

/-- C5 counterexample input: 20 bytes, the disc signature at bytes 16..20
(exactly long enough to contain it). -/
def c5data : Bytes := List.replicate 16 0 ++ csiD

/-- C5 witness input: a 48-byte DiscContainer with an old-dialect table. -/
def c5wData : Bytes :=
  List.replicate 16 0 ++ csiD ++ List.replicate 12 0 ++
    [1, 40, 0, 0] ++ [2, 44, 0, 0] ++ List.replicate 4 0xaa ++ List.replicate 4 0xbb

/-- C8 witness input for the all-zero-offsets case: new-dialect table with
entries (5, 0) and (0, 0). -/
def c8zData : Bytes := List.replicate 16 0 ++ [5, 0, 0, 0] ++ [0, 0, 0, 0]

/-- C8 witness input for the backward walk: old-dialect table with entries
(1, 28), (2, 32), (3, 0); the last entry's offset is 0, the walk lands on
32. -/
def c8wData : Bytes :=
  List.replicate 16 0 ++ [1, 28, 0, 0] ++ [2, 32, 0, 0] ++ [3, 0, 0, 0] ++
    [7, 7, 7, 7] ++ [8, 8, 8, 8]

/-- C3 input segments from the spec's concrete example. -/
def c3segs : List (Bytes × Nat) := [([0x01, 0x02], 0), ([0x03, 0x04], 0x1000)]

/-- Total byte length of the chunks of a canonical container. -/
def totalOf (pcs : List (Nat × Bytes)) : Nat := (pcs.map fun p => p.2.length).sum

/-- Each chunk sits in `data` at its canonical position: chunk `k` occupies
`[start_k, start_k + len_k)` where `start_0 = start` and starts accumulate
the chunk lengths. -/
def CarvesOk (data : Bytes) : Nat → List (Nat × Bytes) → Prop
  | _, [] => True
  | start, (_, c) :: rest =>
      byteSlice data start (start + c.length) = c ∧ CarvesOk data (start + c.length) rest

/-- A child in a canonical container: classification of its chunk succeeds
at the given fuel and the resulting element re-serializes to exactly that
chunk, keeping its table id. -/
def ChildOk (fuel : Nat) (p : Nat × Bytes) (e : Element) : Prop :=
  create_element fuel p.1 p.2 = .ok e ∧ Element.to_blob e = p.2 ∧ Element.id e = p.1

/-! Theorems.  General-purpose helper lemmas come first, then one theorem
per claim (with its witness or counterexample where applicable). -/

theorem byteSlice_append_shift (a b : Bytes) (x y : Nat) :
    byteSlice (a ++ b) (a.length + x) (a.length + y) = byteSlice b x y := by
  unfold byteSlice
  rw [List.take_append_eq_append_take]
  rw [List.take_of_length_le (by omega)]
  rw [Nat.add_sub_cancel_left]
  rw [← List.drop_drop]
  rw [List.drop_left]

theorem byteSlice_zero_take (b : Bytes) (y : Nat) : byteSlice b 0 y = b.take y := by
  simp [byteSlice]

/-- Bits 4..7 shifted down by 2 always give a multiple of 4. -/
theorem sizeBytes_mod_four (x : Nat) : ((x &&& 0xf0) >>> 2) % 4 = 0 := by
  have h1 : (x &&& 0xf0) >>> 2 = x / 2 / 2 &&& 60 := by
    rw [Nat.shiftRight_eq_div_pow]
    rw [show (2 : Nat) ^ 2 = 2 * 2 from rfl, ← Nat.div_div_eq_div_mul,
      Nat.and_div_two, Nat.and_div_two]
  have h2 : (x / 2 / 2 &&& 60) % 4 = (x / 2 / 2 &&& 60) &&& 3 := by
    have h := Nat.and_pow_two_sub_one_eq_mod (x / 2 / 2 &&& 60) 2
    norm_num at h
    omega
  have h3 : (60 : Nat) &&& 3 = 0 := by decide
  rw [h1, h2, Nat.and_assoc, h3, Nat.and_zero]

/-- C9: every decodable 8-byte File header declares a payload size that is
a multiple of 4, because the decoded byte-remainder component
`(byte1 and 0xF0) >> 2` can only be one of 0, 4, ..., 60. -/
theorem c9_size_multiple_of_four (b : Bytes) (h : FileHeader)
    (hp : File.parse_header b = some h) : h.size % 4 = 0 := by
  match b with
  | [b0, b1, b2, b3, b4, b5, b6, b7] =>
      simp only [File.parse_header, Option.some.injEq] at hp
      subst hp
      simp only [File.CHUNK_SIZE]
      have h4 := sizeBytes_mod_four b1
      omega
  | [] | [_] | [_, _] | [_, _, _] | [_, _, _, _] | [_, _, _, _, _] | [_, _, _, _, _, _]
  | [_, _, _, _, _, _, _] | _ :: _ :: _ :: _ :: _ :: _ :: _ :: _ :: _ :: _ =>
      simp [File.parse_header] at hp

theorem c9_witness :
    File.parse_header [3, 0x14, 1, 0, 0, 0, 0, 0] = some ⟨true, 1, 0, 4, 68, 0⟩ ∧
    (68 : Nat) % 4 = 0 :=
  ⟨by decide, c9_size_multiple_of_four [3, 0x14, 1, 0, 0, 0, 0, 0] ⟨true, 1, 0, 4, 68, 0⟩ (by decide)⟩

/-- C10: a File built from a buffer of at least 8 bytes stores exactly the
available payload, `len(payload) = min(declared size, len(buffer) - 8)`;
its re-serialization is exactly `8 + len(payload)` bytes; and the emitted
header depends only on the stored payload length, never on the declared
size field. -/
theorem c10_file_truncation (data : Bytes) (f : File) (hf : File.init data = some f) :
    f.blob.length = min f.size (data.length - 8) ∧
    (File.to_blob f).length = 8 + f.blob.length ∧
    ∀ s, File.header_blob { f with size := s } = File.header_blob f := by
  obtain ⟨h, hph, hfe⟩ := Option.map_eq_some'.mp hf
  subst hfe
  refine ⟨?_, ?_, fun s => rfl⟩
  · simp [List.length_take, List.length_drop]
  · simp [File.to_blob, File.header_blob, File.footer_blob, pack16, pack32]
    omega

theorem c10_witness :
    File.init [0x03, 0x10, 0, 0, 0x78, 0x56, 0x34, 0x12, 0xde, 0xad] =
      some ⟨true, 1, 0, 0, 4, 0x12345678, [0xde, 0xad]⟩ ∧
    ([0xde, 0xad] : Bytes).length = min 4 2 ∧
    (File.to_blob ⟨true, 1, 0, 0, 4, 0x12345678, [0xde, 0xad]⟩).length = 8 + 2 :=
  ⟨by decide,
   (c10_file_truncation [0x03, 0x10, 0, 0, 0x78, 0x56, 0x34, 0x12, 0xde, 0xad]
     ⟨true, 1, 0, 0, 4, 0x12345678, [0xde, 0xad]⟩ (by decide)).1,
   (c10_file_truncation [0x03, 0x10, 0, 0, 0x78, 0x56, 0x34, 0x12, 0xde, 0xad]
     ⟨true, 1, 0, 0, 4, 0x12345678, [0xde, 0xad]⟩ (by decide)).2.1⟩

theorem byte0_bits (p : Bool) (i t : Nat) (hi : i < 16) (ht : t < 8) :
    ((((((if p then 1 else 0) ||| (i <<< 1)) ||| (t <<< 5)) &&& 0xff) &&& 1) == 1) = p ∧
    (((((if p then 1 else 0) ||| (i <<< 1)) ||| (t <<< 5)) &&& 0xff) >>> 1) &&& 0x0f = i ∧
    ((((if p then 1 else 0) ||| (i <<< 1)) ||| (t <<< 5)) &&& 0xff) >>> 5 = t := by
  cases p <;> interval_cases i <;> interval_cases t <;> exact ⟨rfl, rfl, rfl⟩

theorem byte1_bits (m u : Nat) (hm : m < 64) (hm4 : m % 4 = 0) (hu : u < 16) :
    ((((m <<< 2) ||| u) % 256) &&& 0xf0) >>> 2 = m ∧
    (((m <<< 2) ||| u) % 256) &&& 0x0f = u := by
  obtain ⟨k, hk, hklt⟩ : ∃ k, m = 4 * k ∧ k < 16 := ⟨m / 4, by omega, by omega⟩
  subst hk
  interval_cases k <;> interval_cases u <;> exact ⟨rfl, rfl⟩

/-- C2: encode-then-decode identity for the File header.  For any packed
flag, slot id 0..15, file type 0..7, unknown 0..15, 32-bit load address,
byte remainder a multiple of 4 (0, 4, ..., 60), and payload whose length
is congruent to that remainder modulo 64 (and small enough for the 16-bit
chunk count the encoder can represent at all), `File.parse_header` on
`File.header_blob` recovers every field, with the decoded size equal to
the payload length. -/
theorem c2_header_roundtrip (packed : Bool)
    (slotId fileType unknown sizeBytes loadAddress : Nat) (payload : Bytes)
    (h1 : slotId < 16) (h2 : fileType < 8) (h3 : unknown < 16)
    (h4 : loadAddress < 2 ^ 32)
    (h5 : sizeBytes % 4 = 0) (h6 : payload.length % 64 = sizeBytes)
    (h7 : payload.length / 64 < 2 ^ 16) :
    File.parse_header
        (File.header_blob ⟨packed, slotId, fileType, unknown, payload.length, loadAddress, payload⟩) =
      some ⟨packed, slotId, fileType, unknown, payload.length, loadAddress⟩ := by
  have hm : payload.length % 64 < 64 := Nat.mod_lt _ (by norm_num)
  have hm4 : payload.length % 64 % 4 = 0 := by omega
  obtain ⟨hb0p, hb0i, hb0t⟩ := byte0_bits packed slotId fileType h1 h2
  obtain ⟨hb1s, hb1u⟩ := byte1_bits (payload.length % 64) unknown hm hm4 h3
  simp only [File.header_blob, File.CHUNK_SIZE, pack16, pack32, List.cons_append,
    List.nil_append, File.parse_header, Option.some.injEq, FileHeader.mk.injEq]
  refine ⟨hb0p, hb0i, hb0t, hb1u, ?_, ?_⟩
  · rw [hb1s]
    simp only [u16le]
    omega
  · simp only [u32le]
    omega

theorem c2_witness :
    File.parse_header (File.header_blob ⟨true, 3, 2, 5, 68, 0x12345678, List.replicate 68 9⟩) =
      some ⟨true, 3, 2, 5, 68, 0x12345678⟩ := by
  have h := c2_header_roundtrip true 3 2 5 4 0x12345678 (List.replicate 68 9)
    (by norm_num) (by norm_num) (by norm_num) (by norm_num) (by norm_num)
    (by decide) (by decide)
  simpa using h

/-- C3: evaluation of `Elf32.to_blob` on the spec's two-segment example.
The file header fields, program headers, and raw bytes are as the claim
says except the section-header count: the blob carries exactly one null
0x28-byte section header at `e_shoff = 0x74`, yet the `e_shnum` field
(bytes 48..50) is 0, not 1 — the call site passes its header counts one
position early, so `e_phnum` lands correctly but `e_shnum` is left 0. -/
theorem c3_elf_example :
    (Elf32.to_blob c3segs).length = 0xa0 ∧
    byteSlice (Elf32.to_blob c3segs) 28 32 = pack32 0x34 ∧
    byteSlice (Elf32.to_blob c3segs) 32 36 = pack32 0x74 ∧
    byteSlice (Elf32.to_blob c3segs) 44 46 = pack16 2 ∧
    byteSlice (Elf32.to_blob c3segs) 48 50 = pack16 0 ∧
    byteSlice (Elf32.to_blob c3segs) 48 50 ≠ pack16 1 ∧
    byteSlice (Elf32.to_blob c3segs) 0x34 0x54 = program_header 1 0x9c 0x0 0 2 2 7 0 ∧
    byteSlice (Elf32.to_blob c3segs) 0x54 0x74 = program_header 1 0x9e 0x1000 0 2 2 7 0 ∧
    byteSlice (Elf32.to_blob c3segs) 0x74 0x9c = section_header 0 0 0 0 0 0 0 0 0 0 ∧
    byteSlice (Elf32.to_blob c3segs) 0x9c 0xa0 = [0x01, 0x02, 0x03, 0x04] := by
  decide

/-- A successful `Container.__init__` always yields a container node of the
requested dialect and id, with the pre-table header taken from the data. -/
theorem containerInitWith_ok_shape (ce : Nat → Bytes → Except DecodeError Element)
    (isDisc : Bool) (id : Nat) (data : Bytes) (e : Element)
    (h : containerInitWith ce isDisc id data = .ok e) :
    ∃ cs, e = .container isDisc id (data.take (pthOf isDisc)) cs := by
  unfold containerInitWith at h
  split at h
  · split at h
    · exact absurd h (by simp)
    · split at h
      · exact absurd h (by simp)
      · split at h
        · exact absurd h (by simp)
        · split at h
          · exact absurd h (by simp)
          · split at h
            · exact absurd h (by simp)
            · exact ⟨_, (Except.ok.inj h).symm⟩
  · exact absurd h (by simp)

/-- C5 counterexample: a 20-byte range that is exactly long enough to hold
the marker at bytes 16..20 and does hold it there is classified as a
Directory, not a DiscContainer — the code additionally requires the range
to be longer than 36 bytes before the signature check fires. -/
theorem c5_counterexample :
    c5data.length = 20 ∧
    byteSlice c5data 16 20 = csiD ∧
    create_element (c5data.length + 1) 1 c5data = .ok (directoryInit 1 c5data) ∧
    isDiscContainer (directoryInit 1 c5data) = false := by
  refine ⟨by decide, by decide, ?_, rfl⟩
  rfl

/-- C5 amended: for ranges longer than 36 bytes containing the marker at
bytes 16..20, the classifier takes the DiscContainer branch, with priority
over the Blob and Directory rules; any successful classification of such a
range is a DiscContainer node. -/
theorem c5_disc_priority (fuel id : Nat) (data : Bytes)
    (h1 : 36 < data.length) (h2 : byteSlice data 16 20 = csiD) :
    create_element (fuel + 1) id data =
      containerInitWith (fun i d => create_element fuel i d) true id data ∧
    ∀ e, create_element (fuel + 1) id data = .ok e → isDiscContainer e = true := by
  have heq : create_element (fuel + 1) id data =
      containerInitWith (fun i d => create_element fuel i d) true id data := by
    simp only [create_element]
    rw [if_pos ⟨h1, h2⟩]
  refine ⟨heq, fun e he => ?_⟩
  rw [heq] at he
  obtain ⟨cs, rfl⟩ := containerInitWith_ok_shape _ _ _ _ _ he
  rfl

theorem c5_witness :
    36 < c5wData.length ∧ byteSlice c5wData 16 20 = csiD ∧
    (create_element (48 + 1) 7 c5wData =
      containerInitWith (fun i d => create_element 48 i d) true 7 c5wData) ∧
    ∀ e, create_element (48 + 1) 7 c5wData = .ok e → isDiscContainer e = true :=
  ⟨by decide, by decide,
   (c5_disc_priority 48 7 c5wData (by decide) (by decide)).1,
   (c5_disc_priority 48 7 c5wData (by decide) (by decide)).2⟩

/-- The inner scan of the resolver finds exactly the first merged segment
satisfying the endpoint-containment test, and replaces it in place. -/
theorem scanMerge_spec (data : Bytes) (address : Nat) :
    ∀ l : List (Bytes × Nat),
      scanMerge data address l =
        match l.findIdx? (segOverlapB address data.length) with
        | some i => some (l.set i (mergedSeg l[i]! data address))
        | none => none := by
  intro l
  induction l with
  | nil => rfl
  | cons head tail ih =>
      obtain ⟨cd, ca⟩ := head
      by_cases hc : (ca ≤ address ∧ address ≤ ca + cd.length) ∨
          (ca ≤ address + data.length ∧ address + data.length ≤ ca + cd.length)
      · simp only [scanMerge, List.findIdx?_cons]
        rw [if_pos hc, if_pos (by simpa [segOverlapB] using hc)]
        simp [mergedSeg]
      · simp only [scanMerge, List.findIdx?_cons]
        rw [if_neg hc, if_neg (by simpa [segOverlapB] using hc)]
        rw [show (1 : Nat) = 0 + 1 from rfl, List.findIdx?_succ]
        rw [ih]
        cases h' : List.findIdx? (segOverlapB address data.length) tail 0 with
        | none => simp
        | some i => simp

/-- C4 amended: each incoming segment is merged into the first merged
segment whose range contains the incoming segment's start or end
(boundaries inclusive), replacing it with the span from
`min(addr, curAddr)` built as `curData[:startOffset] + data +
curData[endOffset:]`; when no merged segment contains an endpoint — in
particular when the incoming range strictly contains an existing range —
the segment is appended separately. -/
theorem c4_first_match_merge (news : List (Bytes × Nat)) (data : Bytes) (address : Nat) :
    resolveStep news data address =
      match news.findIdx? (segOverlapB address data.length) with
      | some i => news.set i (mergedSeg news[i]! data address)
      | none => news ++ [(data, address)] := by
  unfold resolveStep
  rw [scanMerge_spec]
  cases h' : news.findIdx? (segOverlapB address data.length) with
  | none => simp
  | some i => simp

/-- C4 counterexample: the incoming segment at address 0 (10 bytes)
strictly contains the merged segment at address 4 (2 bytes); the ranges
intersect, yet the resolver appends instead of replacing the intersecting
segment with the claimed merged span. -/
theorem c4_counterexample :
    (0 < 4 ∧ 4 + 2 < 0 + 10) ∧
    resolve_segment_overlaps c4segs = c4segs ∧
    c4segs.length = 2 ∧
    resolve_segment_overlaps c4segs ≠
      [mergedSeg ([0xaa, 0xaa], 4) (List.replicate 10 0xbb) 0] := by
  decide

theorem fileOf8_init (b0 b1 b2 b3 b4 b5 b6 b7 : Nat) (rest : Bytes) :
    File.init (b0 :: b1 :: b2 :: b3 :: b4 :: b5 :: b6 :: b7 :: rest) =
      some (fileOf8 b0 b1 b2 b3 b4 b5 b6 b7 rest) := rfl

theorem dirLoop_short (data : Bytes) (h : data.length < 8) : dirLoop data = ([], data) := by
  rcases data with _ | ⟨b0, _ | ⟨b1, _ | ⟨b2, _ | ⟨b3, _ | ⟨b4, _ | ⟨b5, _ | ⟨b6, _ | ⟨b7, rest⟩⟩⟩⟩⟩⟩⟩⟩
  all_goals first
    | (exfalso; simp only [List.length_cons] at h; omega)
    | simp [dirLoop]

theorem dirLoop_cons (b0 b1 b2 b3 b4 b5 b6 b7 : Nat) (rest : Bytes) :
    dirLoop (b0 :: b1 :: b2 :: b3 :: b4 :: b5 :: b6 :: b7 :: rest) =
      (if (fileOf8 b0 b1 b2 b3 b4 b5 b6 b7 rest).id == 0 then
        ([fileOf8 b0 b1 b2 b3 b4 b5 b6 b7 rest],
         rest.drop (fileOf8 b0 b1 b2 b3 b4 b5 b6 b7 rest).blob.length)
       else
        (fileOf8 b0 b1 b2 b3 b4 b5 b6 b7 rest ::
           (dirLoop (rest.drop (fileOf8 b0 b1 b2 b3 b4 b5 b6 b7 rest).blob.length)).1,
         (dirLoop (rest.drop (fileOf8 b0 b1 b2 b3 b4 b5 b6 b7 rest).blob.length)).2)) := by
  simp only [dirLoop]

theorem dirLoop_spec (data : Bytes) :
    DirFiles data (dirLoop data).1 (dirLoop data).2 := by
  have main : ∀ (n : Nat) (d : Bytes), d.length ≤ n → DirFiles d (dirLoop d).1 (dirLoop d).2 := by
    intro n
    induction n with
    | zero =>
        intro d h
        have hd : d = [] := List.eq_nil_of_length_eq_zero (by omega)
        subst hd
        rw [dirLoop_short [] (by simp)]
        exact DirFiles.stop [] (by simp)
    | succ n ih =>
        intro d h
        by_cases h8 : d.length < 8
        · rw [dirLoop_short d h8]
          exact DirFiles.stop d h8
        · rcases d with _ | ⟨b0, _ | ⟨b1, _ | ⟨b2, _ | ⟨b3, _ | ⟨b4, _ | ⟨b5, _ | ⟨b6, _ | ⟨b7, rest⟩⟩⟩⟩⟩⟩⟩⟩
          all_goals try (exfalso; exact h8 (by simp only [List.length_cons, List.length_nil]; omega))
          rw [dirLoop_cons]
          have hdrop : ∀ k : Nat,
              (b0 :: b1 :: b2 :: b3 :: b4 :: b5 :: b6 :: b7 :: rest).drop (8 + k) =
                rest.drop k := fun k => (List.drop_drop k 8 _).symm
          by_cases hid : (fileOf8 b0 b1 b2 b3 b4 b5 b6 b7 rest).id = 0
          · rw [if_pos (by simp [hid])]
            have hc := DirFiles.last (b0 :: b1 :: b2 :: b3 :: b4 :: b5 :: b6 :: b7 :: rest)
              (fileOf8 b0 b1 b2 b3 b4 b5 b6 b7 rest) (fileOf8_init b0 b1 b2 b3 b4 b5 b6 b7 rest) hid
            rwa [hdrop] at hc
          · rw [if_neg (by simp [hid])]
            refine DirFiles.cons _ _ _ _ (fileOf8_init b0 b1 b2 b3 b4 b5 b6 b7 rest) hid ?_
            rw [hdrop]
            refine ih _ ?_
            have : rest.length + 8 ≤ n + 1 := by
              simpa only [List.length_cons] using h
            have := List.length_drop ((fileOf8 b0 b1 b2 b3 b4 b5 b6 b7 rest).blob.length) rest
            omega
  exact main data.length data le_rfl

/-- C6: a Directory parses Files back to back from offset 0 (each file
consuming 8 header bytes plus its stored payload), stops after appending
the first File with slot id 0 or as soon as fewer than 8 bytes remain, and
puts any leftover bytes into exactly one trailing Blob child with id 0. -/
theorem c6_directory_terminator (id : Nat) (data : Bytes) :
    DirFiles data (dirLoop data).1 (dirLoop data).2 ∧
    directoryInit id data =
      .directory id ((dirLoop data).1.map Element.file ++
        if (dirLoop data).2.isEmpty then [] else [.blob 0 (dirLoop data).2]) :=
  ⟨dirLoop_spec data, rfl⟩

theorem packEntry_length (i o : Nat) : (packEntry i o).length = 4 := rfl

theorem blobs_eq_map (es : List Element) : blobs es = es.map Element.to_blob := by
  induction es with
  | nil => rfl
  | cons e tl ih => simp [blobs, ih]

theorem header_idSizes (es : List Element) :
    List.zip (es.map Element.id) ((blobs es).map List.length) =
      es.map fun e => (Element.id e, (Element.to_blob e).length) := by
  rw [blobs_eq_map, List.map_map, List.zip_map']
  rfl

theorem segTableAux_slice (ps : List (Nat × Nat)) (offset i : Nat) (hi : i < ps.length) :
    byteSlice (segTableAux offset ps) (4 * i) (4 * i + 4) =
      packEntry ps[i].1 (cursorSpec offset (ps.map Prod.snd) i) := by
  induction ps generalizing offset i with
  | nil => simp at hi
  | cons p tl ih =>
      obtain ⟨pi, ps⟩ := p
      cases i with
      | zero =>
          simp only [segTableAux, cursorSpec, Nat.mul_zero, Nat.zero_add,
            byteSlice_zero_take, List.getElem_cons_zero]
          rw [List.take_left' (packEntry_length pi offset)]
      | succ i =>
          have h4 : 4 * (i + 1) = (packEntry pi offset).length + 4 * i := by
            rw [packEntry_length]; omega
          have h4b : 4 * (i + 1) + 4 = (packEntry pi offset).length + (4 * i + 4) := by
            rw [packEntry_length]; omega
          simp only [segTableAux]
          rw [h4b, h4, byteSlice_append_shift]
          simp only [List.getElem_cons_succ, List.map_cons, cursorSpec]
          exact ih _ _ (by simpa using hi)

/-- C7: in the rebuilt table of `Container.header_blob`, entry `i`'s bytes
are the packed id of child `i` together with the cursor value given by the
claimed rule: the cursor starts at pre-table-header length + 4 * number of
children (right after the table region), advances past each child by its
nonzero encoded size, and is reset to 0 by a child of zero encoded size. -/
theorem c7_table_offsets (pre : Bytes) (es : List Element) (e0 : Element)
    (h0 : es.head? = some e0) (hroot : Element.id e0 ≠ ROOT_CONTAINER_ID)
    (i : Nat) (hi : i < es.length) :
    byteSlice (Container.header_blob pre es) (pre.length + 4 * i) (pre.length + 4 * i + 4) =
      packEntry (Element.id es[i])
        (cursorSpec (pre.length + 4 * es.length)
          (es.map fun e => (Element.to_blob e).length) i) := by
  cases es with
  | nil => simp at h0
  | cons ehd tl =>
      have he : ehd = e0 := by simpa using h0
      subst he
      unfold Container.header_blob
      rw [header_idSizes]
      simp only [containerHeaderAux, List.map_cons, List.length_cons, List.length_map]
      rw [if_neg (by simpa using hroot)]
      rw [show pre.length + 4 * i + 4 = pre.length + (4 * i + 4) from by omega]
      rw [byteSlice_append_shift]
      have hmap : ((ehd.id, ehd.to_blob.length) ::
            (tl.map fun x => (Element.id x, (Element.to_blob x).length))) =
          (ehd :: tl).map fun x => (Element.id x, (Element.to_blob x).length) := by
        simp
      have hlt : i < ((ehd.id, ehd.to_blob.length) ::
          (tl.map fun x => (Element.id x, (Element.to_blob x).length))).length := by
        simp only [List.length_cons, List.length_map]
        simpa using hi
      rw [segTableAux_slice _ (pre.length + 4 * (tl.length + 1)) i hlt]
      congr 1
      · rw [List.getElem_of_eq hmap hlt, List.getElem_map]
      · rw [hmap, List.map_map]
        rfl

theorem c7_witness :
    byteSlice
        (Container.header_blob [9, 9] [Element.blob 5 [], Element.blob 6 [7, 7]])
        (([9, 9] : Bytes).length + 4 * 1) (([9, 9] : Bytes).length + 4 * 1 + 4) =
      packEntry (Element.id ([Element.blob 5 [], Element.blob 6 [7, 7]] : List Element)[1])
        (cursorSpec (([9, 9] : Bytes).length + 4 * ([Element.blob 5 [], Element.blob 6 [7, 7]] : List Element).length)
          (([Element.blob 5 [], Element.blob 6 [7, 7]] : List Element).map
            fun e => (Element.to_blob e).length) 1) :=
  c7_table_offsets [9, 9] [Element.blob 5 [], Element.blob 6 [7, 7]] (Element.blob 5 [])
    rfl (by decide) 1 (by simp)

theorem backWalk_all_zero (l : List (Nat × Nat)) (h : ∀ p ∈ l, p.2 = 0) :
    backWalk l = none := by
  induction l with
  | nil => rfl
  | cons p rest ih =>
      obtain ⟨pi, po⟩ := p
      have hz : po = 0 := h (pi, po) (by simp)
      subst hz
      simp only [backWalk, if_pos]
      exact ih fun q hq => h q (by simp [hq])

theorem backWalk_some_decomp (l : List (Nat × Nat)) (o : Nat) (h : backWalk l = some o) :
    o ≠ 0 ∧ ∃ zs i rest, l = zs ++ (i, o) :: rest ∧ ∀ p ∈ zs, p.2 = 0 := by
  induction l with
  | nil => simp [backWalk] at h
  | cons p rest ih =>
      obtain ⟨pi, po⟩ := p
      by_cases hz : po = 0
      · subst hz
        simp only [backWalk, if_pos] at h
        obtain ⟨hno, zs, i, r2, hl, hz2⟩ := ih h
        refine ⟨hno, (pi, 0) :: zs, i, r2, by simp [hl], ?_⟩
        intro q hq
        rcases List.mem_cons.mp hq with hq | hq
        · simp [hq]
        · exact hz2 q hq
      · have hne : (po == 0) = false := by simpa using hz
        simp only [backWalk, hne, Bool.false_eq_true, if_false, Option.some.injEq] at h
        subst h
        exact ⟨hz, [], pi, rest, rfl, by simp⟩

theorem lastNonzeroStart_of_backWalk (es : List (Nat × Nat)) (o : Nat)
    (h : backWalk es.reverse = some o) : LastNonzeroStart es o := by
  obtain ⟨hno, zs, i, rest, hdec, hz⟩ := backWalk_some_decomp _ _ h
  have hes : es = rest.reverse ++ (i, o) :: zs.reverse := by
    have h2 := congrArg List.reverse hdec
    simpa [List.reverse_append] using h2
  refine ⟨hno, rest.reverse.length, ?_, ?_⟩
  · rw [hes, List.getElem?_append_right (le_refl _)]
    simp
  · intro j hj hjlen
    have hlen : es.length = rest.reverse.length + (zs.reverse.length + 1) := by
      rw [hes]
      simp only [List.length_append, List.length_cons, List.length_reverse]
    rw [hes, List.getElem?_append_right (by omega)]
    have hidx : j - rest.reverse.length = (j - rest.reverse.length - 1) + 1 := by omega
    rw [hidx, List.getElem?_cons_succ]
    have hlt : j - rest.reverse.length - 1 < zs.reverse.length := by omega
    rw [List.getElem?_eq_getElem hlt]
    have hmem : zs.reverse[j - rest.reverse.length - 1] ∈ zs := by
      have := List.getElem_mem hlt
      exact (List.mem_reverse).mp this
    simp only [Option.map_some']
    exact congrArg some (hz _ hmem)

theorem pairsLoopWith_all_zero (ce : Nat → Bytes → Except DecodeError Element) (data : Bytes) :
    ∀ es : List (Nat × Nat), (∀ p ∈ es, p.2 = 0) →
      ∃ cs, pairsLoopWith ce data es = .ok cs := by
  intro es
  induction es with
  | nil => exact fun _ => ⟨[], rfl⟩
  | cons p rest ih =>
      intro h
      obtain ⟨a, b⟩ := p
      cases rest with
      | nil => exact ⟨[], rfl⟩
      | cons q rest' =>
          have hb : b = 0 := h (a, b) (by simp)
          subst hb
          obtain ⟨cs, hcs⟩ := ih fun q hq => h q (by simp [hq])
          refine ⟨Element.blob a (byteSlice data 0 q.2) :: cs, ?_⟩
          simp only [pairsLoopWith]
          rw [if_pos (by simp)]
          rw [hcs]

/-- C8: (a) whenever container parsing succeeds and the final table entry's
offset is 0, the start of the last child is the offset found by walking
backward to the latest entry with a nonzero offset; (b) when every entry's
offset is 0 (so the walk runs off the front of the table, Python's
IndexError), parsing reports the InconsistentTable decode error — a
bounded, reported failure, not a loop or a silent success. -/
theorem c8_backward_walk :
    (∀ (fuel : Nat) (isDisc : Bool) (cid : Nat) (data : Bytes) (es : List (Nat × Nat))
        (lastId : Nat) (children : List Element),
      elementsOf (pthOf isDisc) data = some es →
      es.getLast? = some (lastId, 0) →
      containerInit fuel isDisc cid data =
        .ok (.container isDisc cid (data.take (pthOf isDisc)) children) →
      ∃ o, LastNonzeroStart es o ∧
        ∃ e, create_element fuel lastId (data.drop o) = .ok e ∧
          children ≠ [] ∧ children.getLast? = some e) ∧
    (∀ (fuel : Nat) (isDisc : Bool) (cid : Nat) (data : Bytes) (es : List (Nat × Nat)),
      signatureOk isDisc data = true →
      elementsOf (pthOf isDisc) data = some es →
      (∀ p ∈ es, p.2 = 0) →
      containerInit fuel isDisc cid data = .error .inconsistentTable) := by
  constructor
  · intro fuel isDisc cid data es lastId children hes hlast hok
    simp only [containerInit, containerInitWith] at hok
    split at hok
    · split at hok
      · rename_i heq
        rw [hes] at heq
        exact absurd heq (by simp)
      · rename_i elements heq
        rw [hes] at heq
        obtain rfl : es = elements := Option.some.inj heq
        split at hok
        · exact absurd hok (by simp)
        · rename_i cs hcs
          split at hok
          · exact absurd hok (by simp)
          · rename_i lastId2 lastOff2 hlast2
            rw [hlast] at hlast2
            obtain ⟨rfl, rfl⟩ : lastId = lastId2 ∧ (0 : Nat) = lastOff2 := by
              have h2 := Option.some.inj hlast2
              exact ⟨congrArg Prod.fst h2, congrArg Prod.snd h2⟩
            split at hok
            · exact absurd hok (by simp)
            · rename_i o hbw
              split at hok
              · exact absurd hok (by simp)
              · rename_i e2 hce
                have hch : cs ++ [e2] = children := by
                  have h2 := Except.ok.inj hok
                  injection h2
                refine ⟨o, lastNonzeroStart_of_backWalk es o hbw, e2, hce, ?_, ?_⟩
                · rw [← hch]; simp
                · rw [← hch]; exact List.getLast?_concat _
    · exact absurd hok (by simp)
  · intro fuel isDisc cid data es hsig hes hz
    obtain ⟨cs, hcs⟩ := pairsLoopWith_all_zero (fun i d => create_element fuel i d) data es hz
    have hbw : backWalk es.reverse = none :=
      backWalk_all_zero _ fun p hp => hz p ((List.mem_reverse).mp hp)
    cases es with
    | nil =>
        simp only [containerInit, containerInitWith, hsig, if_true, hes, hcs, List.getLast?]
    | cons p rest =>
        cases hql : (p :: rest).getLast? with
        | none => exact absurd hql (by simp)
        | some q =>
            simp only [containerInit, containerInitWith, hsig, if_true, hes, hcs, hql, hbw]

theorem c8_witness :
    (∃ o, LastNonzeroStart [(1, 28), (2, 32), (3, 0)] o ∧
      ∃ e, create_element (c8wData.length + 1) 3 (c8wData.drop o) = .ok e ∧
        ([Element.blob 1 [7, 7, 7, 7], Element.blob 2 [],
          Element.blob 3 [8, 8, 8, 8]] : List Element) ≠ [] ∧
        ([Element.blob 1 [7, 7, 7, 7], Element.blob 2 [],
          Element.blob 3 [8, 8, 8, 8]] : List Element).getLast? = some e) ∧
    containerInit (c8zData.length + 1) false 9 c8zData = .error .inconsistentTable :=
  ⟨c8_backward_walk.1 (c8wData.length + 1) false 9 c8wData [(1, 28), (2, 32), (3, 0)] 3
      [Element.blob 1 [7, 7, 7, 7], Element.blob 2 [], Element.blob 3 [8, 8, 8, 8]]
      (by decide) (by decide) rfl,
   c8_backward_walk.2 (c8zData.length + 1) false 9 c8zData [(5, 0), (0, 0)]
      (by decide) (by decide) (by decide)⟩

/-! Lemmas for the canonical-container round trip (C1). -/

theorem and_mask255 (i : Nat) (h : i < 256) : i &&& 0xff = i := by
  have h2 := Nat.and_pow_two_sub_one_eq_mod i 8
  norm_num at h2
  omega

theorem and_mask32 (o : Nat) (h : o < 4294967296) : o &&& 0xffffffff = o := by
  have h2 := Nat.and_pow_two_sub_one_eq_mod o 32
  norm_num at h2
  omega

theorem packEntry_eq (i o : Nat) (hi : i < 256) (ho : o < 2 ^ 24) :
    packEntry i o = [i, o % 256, o / 256 % 256, o / 65536 % 256] := by
  unfold packEntry pack32
  rw [and_mask255 i hi, and_mask32 o (by omega)]
  rfl

theorem parse_packEntry (i o : Nat) (hi : i < 256) (ho : o < 2 ^ 24) :
    parse_entry (packEntry i o) = some (i, o) := by
  rw [packEntry_eq i o hi ho]
  simp only [parse_entry, u32le, Option.some.injEq, Prod.mk.injEq]
  exact ⟨trivial, by omega⟩

theorem tableBytes_cons (e : Nat × Nat) (es : List (Nat × Nat)) :
    tableBytes (e :: es) = packEntry e.1 e.2 ++ tableBytes es := by
  simp [tableBytes]

theorem tableBytes_length (es : List (Nat × Nat)) : (tableBytes es).length = 4 * es.length := by
  induction es with
  | nil => rfl
  | cons e tl ih =>
      rw [tableBytes_cons, List.length_append, packEntry_length, ih, List.length_cons]
      omega

theorem parseTableChunks_tableBytes (es : List (Nat × Nat))
    (h : ∀ p ∈ es, p.1 < 256 ∧ p.2 < 2 ^ 24) :
    parseTableChunks (tableBytes es) = some es := by
  induction es with
  | nil => rfl
  | cons e tl ih =>
      obtain ⟨i, o⟩ := e
      obtain ⟨hi, ho⟩ := h (i, o) (by simp)
      rw [tableBytes_cons, packEntry_eq i o hi ho]
      rw [show ([i, o % 256, o / 256 % 256, o / 65536 % 256] : Bytes) ++ tableBytes tl =
        i :: o % 256 :: o / 256 % 256 :: o / 65536 % 256 :: tableBytes tl from rfl]
      simp only [parseTableChunks, parse_entry]
      rw [ih fun p hp => h p (by simp [hp])]
      simp only [Option.map_some', Option.some.injEq, List.cons.injEq]
      refine ⟨?_, trivial⟩
      rw [show u32le (o % 256) (o / 256 % 256) (o / 65536 % 256) 0 = o from by
        simp only [u32le]; omega]

theorem layoutEntries_length (start : Nat) (pcs : List (Nat × Bytes)) :
    (layoutEntries start pcs).length = pcs.length := by
  induction pcs generalizing start with
  | nil => rfl
  | cons p tl ih => simp [layoutEntries, ih]

theorem totalOf_cons (p : Nat × Bytes) (tl : List (Nat × Bytes)) :
    totalOf (p :: tl) = p.2.length + totalOf tl := by
  simp [totalOf]

theorem layoutEntries_append (xs ys : List (Nat × Bytes)) :
    ∀ start, layoutEntries start (xs ++ ys) =
      layoutEntries start xs ++ layoutEntries (start + totalOf xs) ys := by
  induction xs with
  | nil => intro start; simp [layoutEntries, totalOf]
  | cons p tl ih =>
      intro start
      obtain ⟨i, c⟩ := p
      simp only [List.cons_append, layoutEntries, totalOf_cons, List.cons.injEq, true_and]
      rw [show (tl : List (Nat × Bytes)).append ys = tl ++ ys from rfl, ih]
      rw [show start + (c.length + totalOf tl) = start + c.length + totalOf tl from by omega]

theorem layoutEntries_pair (start : Nat) (p : Nat × Bytes) (rest : List (Nat × Bytes)) :
    layoutEntries start (p :: rest) = (p.1, start) :: layoutEntries (start + p.2.length) rest := by
  obtain ⟨i, c⟩ := p
  rfl

theorem layoutEntries_mem (pcs : List (Nat × Bytes)) :
    ∀ start p, p ∈ layoutEntries start pcs →
      (∃ q ∈ pcs, p.1 = q.1) ∧ start ≤ p.2 ∧ p.2 ≤ start + totalOf pcs := by
  induction pcs with
  | nil => intro start p hp; simp [layoutEntries] at hp
  | cons q tl ih =>
      intro start p hp
      obtain ⟨i, c⟩ := q
      rcases List.mem_cons.mp hp with hp | hp
      · subst hp
        exact ⟨⟨(i, c), by simp⟩, le_refl _, by simp⟩
      · obtain ⟨⟨q2, hq2, hq2e⟩, hlo, hhi⟩ := ih (start + c.length) p hp
        refine ⟨⟨q2, by simp [hq2], hq2e⟩, by omega, ?_⟩
        simp only [totalOf_cons]
        omega

theorem totalOf_flatten_length (pcs : List (Nat × Bytes)) :
    ((pcs.map Prod.snd).flatten).length = totalOf pcs := by
  induction pcs with
  | nil => rfl
  | cons p tl ih => simp [totalOf_cons, ih]

theorem carvesOk_append (pcs : List (Nat × Bytes)) :
    ∀ X : Bytes, CarvesOk (X ++ (pcs.map Prod.snd).flatten) X.length pcs := by
  induction pcs with
  | nil => intro X; trivial
  | cons p rest ih =>
      intro X
      obtain ⟨i, c⟩ := p
      simp only [List.map_cons, List.flatten_cons, CarvesOk]
      constructor
      · rw [show X ++ (c ++ (rest.map Prod.snd).flatten) =
              X ++ (c ++ (rest.map Prod.snd).flatten) from rfl]
        have hs := byteSlice_append_shift X (c ++ (rest.map Prod.snd).flatten) 0 c.length
        rw [Nat.add_zero] at hs
        rw [hs, byteSlice_zero_take, List.take_left' rfl]
      · have hi := ih (X ++ c)
        rw [List.append_assoc, List.length_append] at hi
        exact hi

theorem segTableAux_layout (pcs : List (Nat × Bytes)) :
    ∀ start, (∀ p ∈ pcs, p.2 ≠ []) →
      segTableAux start (pcs.map fun p => (p.1, p.2.length)) =
        tableBytes (layoutEntries start pcs) := by
  induction pcs with
  | nil => intro start _; rfl
  | cons p tl ih =>
      intro start h
      obtain ⟨i, c⟩ := p
      simp only [List.map_cons, segTableAux, layoutEntries]
      rw [tableBytes_cons]
      have hc : c.length ≠ 0 := by
        intro heq
        exact h (i, c) (by simp) (List.length_eq_zero.mp heq)
      rw [if_pos hc]
      rw [ih (start + c.length) fun p hp => h p (by simp [hp])]

theorem childOk_maps (fuel : Nat) :
    ∀ (pcs : List (Nat × Bytes)) (elist : List Element),
      List.Forall₂ (ChildOk fuel) pcs elist →
      elist.map Element.to_blob = pcs.map Prod.snd ∧
        elist.map Element.id = pcs.map Prod.fst := by
  intro pcs elist hf
  induction hf with
  | nil => exact ⟨rfl, rfl⟩
  | cons h1 _ ih => simp [h1.2.1, h1.2.2, ih.1, ih.2]

theorem childOk_getLast (fuel : Nat) :
    ∀ (pcs : List (Nat × Bytes)) (elist : List Element),
      List.Forall₂ (ChildOk fuel) pcs elist →
      ∀ p, pcs.getLast? = some p → ∃ e, elist.getLast? = some e ∧ ChildOk fuel p e := by
  intro pcs elist hf
  induction hf with
  | nil => intro p hp; simp at hp
  | @cons a b l1 l2 h1 htail ih =>
      intro p hp
      cases htail with
      | nil =>
          refine ⟨b, rfl, ?_⟩
          have hpa : a = p := by simpa using hp
          subst hpa
          exact h1
      | @cons x y xs ys h2 htail2 =>
          have hp' : (x :: xs).getLast? = some p := by
            simpa [List.getLast?_cons_cons] using hp
          obtain ⟨e, he, hok⟩ := ih p hp'
          exact ⟨e, by simpa [List.getLast?_cons_cons] using he, hok⟩

theorem pairsLoop_layout (fuel : Nat) (data : Bytes) :
    ∀ (pcs : List (Nat × Bytes)) (elist : List Element) (start : Nat),
      0 < start →
      (∀ p ∈ pcs, p.1 ≠ ROOT_CONTAINER_ID) →
      CarvesOk data start pcs →
      List.Forall₂ (ChildOk fuel) pcs elist →
      pairsLoopWith (fun i d => create_element fuel i d) data (layoutEntries start pcs) =
        .ok elist.dropLast := by
  intro pcs
  induction pcs with
  | nil =>
      intro elist start _ _ _ hf
      cases hf
      rfl
  | cons p tl ih =>
      intro elist start hs hids hcar hf
      obtain ⟨i, c⟩ := p
      cases hf with
      | @cons _ e _ elist2 h1 hftl =>
          cases tl with
          | nil =>
              cases hftl
              simp [layoutEntries, pairsLoopWith]
          | cons q tl' =>
              obtain ⟨qi, qc⟩ := q
              obtain ⟨hcv, hcar'⟩ := hcar
              have hce : create_element fuel i c = Except.ok e := h1.1
              have hrootb : (i == ROOT_CONTAINER_ID) = false := by
                simpa using hids (i, c) (by simp)
              have hsb : (start == 0) = false := by
                simp only [beq_eq_false_iff_ne, ne_eq]
                omega
              have helist2 : elist2 ≠ [] := by
                cases hftl; simp
              simp only [layoutEntries, pairsLoopWith, hrootb, hsb, Bool.or_self,
                Bool.false_eq_true, if_false]
              rw [hcv, hce]
              have hrec := ih elist2 (start + c.length) (by omega)
                (fun p hp => hids p (by simp [hp])) hcar' hftl
              simp only [layoutEntries] at hrec
              rw [hrec]
              rw [List.dropLast_cons_of_ne_nil helist2]

theorem childOk_pairs (fuel : Nat) :
    ∀ (pcs : List (Nat × Bytes)) (elist : List Element),
      List.Forall₂ (ChildOk fuel) pcs elist →
      elist.map (fun e => (Element.id e, (Element.to_blob e).length)) =
        pcs.map fun p => (p.1, p.2.length) := by
  intro pcs elist hf
  induction hf with
  | nil => rfl
  | cons h1 _ ih => simp [h1.2.1, h1.2.2, ih]

/-- C1 amended: round-trip identity for canonical old-dialect-table
containers.  For a buffer `canonData pre pcs` made of a pre-table header of
the dialect's length, a self-describing table whose entries point at the
chunks laid out contiguously right after it (all chunks nonempty, ids
byte-sized and none the root-container id), such that every chunk
classifies successfully into an element that re-serializes to exactly that
chunk, `build_root_container` succeeds and re-serializing the tree
reproduces the buffer byte for byte. -/
theorem c1_roundtrip_amended (isDisc : Bool) (pre : Bytes) (pcs : List (Nat × Bytes))
    (elist : List Element)
    (hpre : pre.length = pthOf isDisc)
    (hsig : (byteSlice (canonData pre pcs) 16 20 == csiD) = isDisc)
    (hn : pcs ≠ [])
    (hids : ∀ p ∈ pcs, p.1 < 256 ∧ p.1 ≠ ROOT_CONTAINER_ID ∧ p.2 ≠ [])
    (hlen : (canonData pre pcs).length < 2 ^ 24)
    (hf : List.Forall₂ (ChildOk ((canonData pre pcs).length + 1)) pcs elist) :
    ∃ root, build_root_container (canonData pre pcs) = .ok root ∧
      Element.to_blob root = canonData pre pcs := by
  have hpth : 16 ≤ pre.length := by
    cases isDisc <;> simp [pthOf] at hpre <;> omega
  have hApos : 0 < pre.length + 4 * pcs.length := by omega
  have hTBlen : (tableBytes (layoutEntries (pre.length + 4 * pcs.length) pcs)).length =
      4 * pcs.length := by
    rw [tableBytes_length, layoutEntries_length]
  have hdata : canonData pre pcs =
      pre ++ (tableBytes (layoutEntries (pre.length + 4 * pcs.length) pcs) ++
        (pcs.map Prod.snd).flatten) := by
    unfold canonData
    rw [List.append_assoc]
  have hdatalen : (canonData pre pcs).length =
      pre.length + 4 * pcs.length + totalOf pcs := by
    rw [hdata]
    simp only [List.length_append, hTBlen, totalOf_flatten_length]
    omega
  have hbounds : ∀ p ∈ layoutEntries (pre.length + 4 * pcs.length) pcs,
      p.1 < 256 ∧ p.2 < 2 ^ 24 := by
    intro p hp
    obtain ⟨⟨q, hq, hq1⟩, hlo, hhi⟩ := layoutEntries_mem pcs _ p hp
    refine ⟨hq1 ▸ (hids q hq).1, ?_⟩
    omega
  -- the first table entry
  obtain ⟨⟨i0, c0⟩, tlp, rfl⟩ : ∃ p tl, pcs = p :: tl := by
    cases pcs with
    | nil => exact absurd rfl hn
    | cons p tl => exact ⟨p, tl, rfl⟩
  have hfirst : byteSlice (canonData pre ((i0, c0) :: tlp)) pre.length (pre.length + 4) =
      packEntry i0 (pre.length + 4 * ((i0, c0) :: tlp).length) := by
    rw [hdata]
    have h0 := byteSlice_append_shift pre
      (tableBytes (layoutEntries (pre.length + 4 * ((i0, c0) :: tlp).length) ((i0, c0) :: tlp)) ++
        (((i0, c0) :: tlp).map Prod.snd).flatten) 0 4
    rw [Nat.add_zero] at h0
    rw [h0, byteSlice_zero_take]
    rw [show layoutEntries (pre.length + 4 * ((i0, c0) :: tlp).length) ((i0, c0) :: tlp) =
          (i0, pre.length + 4 * ((i0, c0) :: tlp).length) ::
            layoutEntries (pre.length + 4 * ((i0, c0) :: tlp).length + c0.length) tlp
        from rfl]
    rw [tableBytes_cons, List.append_assoc]
    exact List.take_left' (packEntry_length _ _)
  have hi0 : i0 < 256 := (hids (i0, c0) (by simp)).1
  have hAlt : pre.length + 4 * ((i0, c0) :: tlp).length < 2 ^ 24 := by
    have := hdatalen
    omega
  have hparse1 : parse_entry (byteSlice (canonData pre ((i0, c0) :: tlp)) pre.length
      (pre.length + 4)) = some (i0, pre.length + 4 * ((i0, c0) :: tlp).length) := by
    rw [hfirst]
    exact parse_packEntry _ _ hi0 hAlt
  have htable : byteSlice (canonData pre ((i0, c0) :: tlp)) pre.length
        (pre.length + 4 * ((i0, c0) :: tlp).length) =
      tableBytes (layoutEntries (pre.length + 4 * ((i0, c0) :: tlp).length) ((i0, c0) :: tlp)) := by
    rw [hdata]
    have h0 := byteSlice_append_shift pre
      (tableBytes (layoutEntries (pre.length + 4 * ((i0, c0) :: tlp).length) ((i0, c0) :: tlp)) ++
        (((i0, c0) :: tlp).map Prod.snd).flatten) 0 (4 * ((i0, c0) :: tlp).length)
    rw [Nat.add_zero] at h0
    rw [h0, byteSlice_zero_take]
    exact List.take_left' hTBlen
  have hchunks : parseTableChunks (tableBytes (layoutEntries
        (pre.length + 4 * ((i0, c0) :: tlp).length) ((i0, c0) :: tlp))) =
      some (layoutEntries (pre.length + 4 * ((i0, c0) :: tlp).length) ((i0, c0) :: tlp)) :=
    parseTableChunks_tableBytes _ hbounds
  have helems : elementsOf (pthOf isDisc) (canonData pre ((i0, c0) :: tlp)) =
      some (layoutEntries (pre.length + 4 * ((i0, c0) :: tlp).length) ((i0, c0) :: tlp)) := by
    rw [← hpre]
    simp only [elementsOf, hparse1]
    rw [if_pos (by omega)]
    simp only [get_elements_old, hparse1, htable, hchunks]
  have hsigok : signatureOk isDisc (canonData pre ((i0, c0) :: tlp)) = true := by
    cases isDisc with
    | true =>
        simp only [signatureOk, if_true]
        exact hsig
    | false =>
        simp only [signatureOk, Bool.false_eq_true, if_false]
        rw [hsig]
        rfl
  set D := canonData pre ((i0, c0) :: tlp) with hD
  set A := pre.length + 4 * ((i0, c0) :: tlp).length with hA
  set es := layoutEntries A ((i0, c0) :: tlp) with hesdef
  set F := D.length + 1 with hF
  -- the pair loop processes all entries but the last
  have hcarves : CarvesOk D A ((i0, c0) :: tlp) := by
    have h1 := carvesOk_append ((i0, c0) :: tlp) (pre ++ tableBytes es)
    rw [List.append_assoc] at h1
    rw [← hdata] at h1
    rw [List.length_append, hTBlen] at h1
    rw [← hA] at h1
    exact h1
  have hploop := pairsLoop_layout F D ((i0, c0) :: tlp) elist A hApos
    (fun p hp => (hids p hp).2.1) hcarves hf
  -- the last entry and the backward walk
  have hgl : ((i0, c0) :: tlp).getLast? = some (((i0, c0) :: tlp).getLast hn) :=
    List.getLast?_eq_getLast _ hn
  set pl := ((i0, c0) :: tlp).getLast hn with hpl
  set front := ((i0, c0) :: tlp).dropLast with hfront
  have hdecomp : front ++ [pl] = (i0, c0) :: tlp := List.dropLast_append_getLast hn
  have heseq : es = layoutEntries A front ++ [(pl.1, A + totalOf front)] := by
    rw [hesdef, ← hdecomp, layoutEntries_append, layoutEntries_pair]
    simp [layoutEntries]
  have hlastq : es.getLast? = some (pl.1, A + totalOf front) := by
    rw [heseq]
    exact List.getLast?_concat _
  have hbw : backWalk es.reverse = some (A + totalOf front) := by
    rw [heseq, List.reverse_append, List.reverse_singleton, List.singleton_append]
    have hz : ((A + totalOf front) == 0) = false := by
      simp only [beq_eq_false_iff_ne, ne_eq]
      omega
    simp only [backWalk, hz, Bool.false_eq_true, if_false]
  obtain ⟨elast, hellast, hoklast⟩ := childOk_getLast F _ elist hf pl hgl
  have hdrop : D.drop (A + totalOf front) = pl.2 := by
    have hmap : ((i0, c0) :: tlp).map Prod.snd = front.map Prod.snd ++ [pl.2] := by
      conv_lhs => rw [← hdecomp]
      simp
    have hD2 : D = ((pre ++ tableBytes es) ++ (front.map Prod.snd).flatten) ++ pl.2 := by
      rw [hdata, hmap]
      simp [List.append_assoc]
    rw [hD2]
    exact List.drop_left' (by
      simp only [List.length_append, hTBlen, totalOf_flatten_length])
  have hcelast : create_element F pl.1 (D.drop (A + totalOf front)) = .ok elast := by
    rw [hdrop]
    exact hoklast.1
  have hci : containerInit F isDisc ROOT_CONTAINER_ID D =
      .ok (.container isDisc ROOT_CONTAINER_ID (D.take (pthOf isDisc))
        (elist.dropLast ++ [elast])) := by
    simp only [containerInit, containerInitWith, hsigok, if_true, helems, hploop,
      hlastq, hbw, hcelast]
  have hpretake : D.take (pthOf isDisc) = pre := by
    rw [hdata, ← hpre]
    exact List.take_left _ _
  have helistne : elist ≠ [] := by
    intro he
    have hl := List.Forall₂.length_eq hf
    rw [he] at hl
    simp at hl
  have hellast2 : elist.dropLast ++ [elast] = elist := by
    have h2 := List.dropLast_append_getLast helistne
    have h3 : elist.getLast helistne = elast := by
      have h4 := hellast
      rw [List.getLast?_eq_getLast elist helistne] at h4
      exact Option.some.inj h4
    rw [h3] at h2
    exact h2
  have hbr : build_root_container D = containerInit (D.length + 1) isDisc ROOT_CONTAINER_ID D := by
    cases isDisc with
    | true => simp only [build_root_container, hsig, if_true, containerInit]
    | false => simp only [build_root_container, hsig, Bool.false_eq_true, if_false, containerInit]
  refine ⟨.container isDisc ROOT_CONTAINER_ID pre elist, ?_, ?_⟩
  · rw [hbr, ← hF, hci, hpretake, hellast2]
  · rw [show Element.to_blob (.container isDisc ROOT_CONTAINER_ID pre elist) =
        containerHeaderAux pre
          (List.zip (elist.map Element.id) ((blobs elist).map List.length)) ++
          (blobs elist).flatten from rfl]
    rw [header_idSizes, childOk_pairs F _ elist hf]
    rw [blobs_eq_map, (childOk_maps F _ elist hf).1]
    simp only [List.map_cons, containerHeaderAux]
    have hr : (i0 == ROOT_CONTAINER_ID) = false := by
      simpa using (hids (i0, c0) (by simp)).2.1
    simp only [hr, Bool.false_eq_true, if_false]
    rw [show ((i0, c0.length) :: (tlp.map fun p => (p.1, p.2.length))) =
          (((i0, c0) :: tlp).map fun p => (p.1, p.2.length)) from rfl]
    rw [segTableAux_layout _ _ (fun p hp => (hids p hp).2.2)]
    rw [hdata]
    simp only [List.length_cons, List.length_map, List.append_assoc, hA, hesdef,
      List.map_cons]

/-- C1 counterexample: `c1data` decodes successfully (a new-dialect table
with entries (5, 0) and (0, 24)), yet re-serializing the decoded tree does
not reproduce the buffer: the zero-offset entry forces a Blob over
`data[0:24]` and the rebuilt table writes different offsets, so the
re-encoding is 52 bytes instead of the original 28. -/
theorem c1_counterexample :
    (build_root_container c1data).map (fun root => Element.to_blob root == c1data) =
      .ok false := by
  rfl

theorem c1_witness :
    ∃ root, build_root_container c1wData = .ok root ∧ Element.to_blob root = c1wData :=
  c1_roundtrip_amended false (List.replicate 16 0) c1wPcs
    [Element.blob 1 [0xaa, 0xaa, 0xaa, 0xaa], Element.blob 2 [0xbb, 0xbb, 0xbb, 0xbb]]
    (by decide) (by decide) (by decide) (by decide) (by decide)
    (List.Forall₂.cons ⟨rfl, rfl, rfl⟩ (List.Forall₂.cons ⟨rfl, rfl, rfl⟩ List.Forall₂.nil))
